import Mathlib

/-
Verification of the freestanding libc replacement in `libc-redacted.h`.

The block-transfer engine (`memcpy`, `memmove`, `memcmp`) is embedded over a
byte-addressed memory model: `Mem` maps addresses to byte values and the C
loops become structural recursions that thread the memory state exactly as the
portable (non-assembly) source paths do.  The numeric engine is embedded over
an executable model of IEEE-754 binary64: a value is a sign/payload datum `D`
and every arithmetic operation rounds its exact rational result to the nearest
representable value with ties to even, exactly as binary64 hardware does for
the portable C expressions of the source.
-/

set_option maxHeartbeats 1600000
set_option maxRecDepth 100000

namespace LibcRedacted

/-- Byte-addressed memory: a total map from addresses to byte values. -/
def Mem : Type := Nat → Nat

/-- Write a single byte `v` at address `a`. -/
def wr (m : Mem) (a v : Nat) : Mem := fun x => if x = a then v else m x

/-- Forward byte copy loop of the source (`while (n--) *d++ = *s++;`),
used by the portable paths of `memcpy` and of `memmove`. -/
def copyFwd (m : Mem) (d s : Nat) : Nat → Mem
  | 0 => m
  | n + 1 => copyFwd (wr m d (m s)) (d + 1) (s + 1) n

/-- Backward byte copy loop of `memmove` (`d += n-1; s += n-1;
while (n--) *d-- = *s--;`): the byte at offset `n` is transferred first. -/
def copyBwd (m : Mem) (d s : Nat) : Nat → Mem
  | 0 => m
  | n + 1 => copyBwd (wr m (d + n) (m (s + n))) d s n

/-- One word transfer `*wd++ = *ws++` of the aligned fast path of `memcpy`:
the eight source bytes are loaded and then stored to the destination. -/
def wrWord (m : Mem) (d s : Nat) : Mem :=
  fun a => if d ≤ a ∧ a < d + 8 then m (s + (a - d)) else m a

/-- Word loop of the aligned fast path of `memcpy` (`while (words--)
*wd++ = *ws++;`). -/
def copyWords (m : Mem) (d s : Nat) : Nat → Mem
  | 0 => m
  | w + 1 => copyWords (wrWord m d s) (d + 8) (s + 8) w

/-- Portable `memcpy`: when `n` is at least one word and both addresses are
word-aligned, whole words are transferred first and the remaining `n mod 8`
bytes follow; otherwise a pure byte loop runs.  Returns the destination. -/
def memcpy (m : Mem) (dest src n : Nat) : Mem × Nat :=
  if 8 ≤ n ∧ dest % 8 = 0 ∧ src % 8 = 0 then
    (copyFwd (copyWords m dest src (n / 8))
      (dest + 8 * (n / 8)) (src + 8 * (n / 8)) (n % 8), dest)
  else
    (copyFwd m dest src n, dest)

/-- Portable `memmove`: returns at once for `dest == src` or `n == 0`;
detects overlap with `s < d + n && d < s + n`; copies forward when the
destination starts first and backward when the source starts first;
non-overlapping ranges are copied forward.  Returns the destination. -/
def memmove (m : Mem) (dest src n : Nat) : Mem × Nat :=
  if dest = src ∨ n = 0 then (m, dest)
  else if src < dest + n ∧ dest < src + n then
    if dest < src then (copyFwd m dest src n, dest)
    else (copyBwd m dest src n, dest)
  else
    (copyFwd m dest src n, dest)

/-- `memcmp`: scans the `n` bytes as unsigned values and returns the signed
difference of the first differing pair, or `0` when all agree. -/
def memcmp (m : Mem) (a b : Nat) : Nat → Int
  | 0 => 0
  | n + 1 =>
    if m a ≠ m b then (m a : Int) - (m b : Int)
    else memcmp m (a + 1) (b + 1) n

/-- Reference result of a non-overlapping block transfer: every byte of
`[d, d+n)` holds the byte of the source range at the same offset. -/
def stamp (m : Mem) (d s n : Nat) : Mem :=
  fun a => if d ≤ a ∧ a < d + n then m (s + (a - d)) else m a

/-- Semantic content of an IEEE-754 binary64 datum: a NaN, a signed infinity,
a signed zero, or a nonzero finite value carried as its exact rational
magnitude.  NaN payload bits, which no operation of the source inspects,
are not tracked. -/
inductive D : Type
  | nan : D
  | inf (neg : Bool) : D
  | zero (neg : Bool) : D
  | num (q : ℚ) : D
deriving DecidableEq

/-- Powers of two over the naturals by binary recursion, so that kernel
reduction stays logarithmic in the exponent. -/
def twoPowF : Nat → Nat → Nat
  | 0, _ => 1
  | fuel + 1, k =>
    if k = 0 then 1
    else
      let h := twoPowF fuel (k / 2)
      if k % 2 = 0 then h * h else h * h * 2

/-- `twoPow k = 2 ^ k`, evaluated by squaring. -/
def twoPow (k : Nat) : Nat := twoPowF k k

/-- Powers of two as rationals, executable for both signs of the exponent
(the kernel-reducible `mkRat` avoids the irreducible field inverse of `ℚ`). -/
def pow2 (z : ℤ) : ℚ :=
  if 0 ≤ z then ((twoPow z.toNat : ℕ) : ℚ) else mkRat 1 (twoPow (-z).toNat)

/-- Kernel-reducible rational addition, equal to `a + b`. -/
def qadd (a b : ℚ) : ℚ := mkRat (a.num * b.den + b.num * a.den) (a.den * b.den)

/-- Kernel-reducible rational multiplication, equal to `a * b`. -/
def qmul (a b : ℚ) : ℚ := mkRat (a.num * b.num) (a.den * b.den)

/-- Kernel-reducible rational division, equal to `a / b` (with `a / 0 = 0`). -/
def qdiv (a b : ℚ) : ℚ := Rat.divInt (a.num * b.den) (a.den * b.num)

/-- Round a nonnegative rational to the nearest natural, ties to even. -/
def rnd (a : ℚ) : ℕ :=
  let n := a.num.toNat
  let d := a.den
  let q := n / d
  let r := n % d
  if 2 * r < d then q else if d < 2 * r then q + 1 else if q % 2 = 0 then q else q + 1

/-- Binary length of a natural number below `2^64`, by structural recursion
on a fuel bound so that it reduces inside the kernel. -/
def szSmall : Nat → Nat → Nat
  | 0, _ => 0
  | fuel + 1, n => if n = 0 then 0 else szSmall fuel (n / 2) + 1

/-- Binary length of an arbitrary natural number, stripping 64 bits per
recursion level (the literal is `2^64`) to keep the kernel recursion depth
low even for numbers with thousands of bits. -/
def szBig : Nat → Nat → Nat
  | 0, _ => 0
  | fuel + 1, n =>
    if n < 18446744073709551616 then szSmall 64 n
    else szBig fuel (n / 18446744073709551616) + 64

/-- Binary length: `sz n` is the least `k` with `n < 2^k`. -/
def sz (n : Nat) : Nat := szBig n n

/-- Floor of the base-two logarithm of a positive rational, executable via
the binary lengths of numerator and denominator. -/
def qlog2 (a : ℚ) : ℤ :=
  let s : ℤ := (sz a.num.toNat : ℤ) - (sz a.den : ℤ)
  if a < pow2 s then s - 1 else s

/-- Round an exact rational result to binary64 (round to nearest, ties to
even): the mantissa is read off 52 binary places below the leading bit, or at
the subnormal scale `2^-1074`; a rounded magnitude of at least `2^1024`
overflows to infinity and a rounded mantissa of zero underflows to a signed
zero.  This is the rounding every binary64 arithmetic operation applies. -/
def roundQ (q : ℚ) : D :=
  if q = 0 then D.zero false
  else
    let s := decide (q < 0)
    let a := |q|
    let p : ℤ := max (qlog2 a - 52) (-1074)
    let m : ℕ := rnd (qdiv a (pow2 p))
    if m = 0 then D.zero s
    else if pow2 1024 ≤ qmul (m : ℚ) (pow2 p) then D.inf s
    else D.num (if s then -qmul (m : ℚ) (pow2 p) else qmul (m : ℚ) (pow2 p))

/-- Negation of a binary64 value (sign-bit flip). -/
def dneg : D → D
  | D.nan => D.nan
  | D.inf b => D.inf (!b)
  | D.zero b => D.zero (!b)
  | D.num q => D.num (-q)

/-- IEEE-754 binary64 addition: NaN propagates, opposite infinities give NaN,
`-0 + -0 = -0` while any other zero sum gives `+0` (round-to-nearest), and a
nonzero exact sum is rounded. -/
def dadd : D → D → D
  | D.nan, _ => D.nan
  | _, D.nan => D.nan
  | D.inf b, D.inf c => if b = c then D.inf b else D.nan
  | D.inf b, _ => D.inf b
  | _, D.inf c => D.inf c
  | D.zero a, D.zero b => D.zero (a && b)
  | D.zero _, y => y
  | x, D.zero _ => x
  | D.num p, D.num q => if qadd p q = 0 then D.zero false else roundQ (qadd p q)

/-- IEEE-754 binary64 subtraction, `x - y = x + (-y)` exactly. -/
def dsub (x y : D) : D := dadd x (dneg y)

/-- Sign of a non-NaN binary64 value. -/
def signB : D → Bool
  | D.nan => false
  | D.inf b => b
  | D.zero b => b
  | D.num q => decide (q < 0)

/-- IEEE-754 binary64 multiplication: NaN propagates, infinity times zero is
NaN, signs combine by exclusive or, and a nonzero exact product is rounded. -/
def dmul : D → D → D
  | D.nan, _ => D.nan
  | _, D.nan => D.nan
  | D.inf _, D.zero _ => D.nan
  | D.zero _, D.inf _ => D.nan
  | D.inf b, D.inf c => D.inf (xor b c)
  | D.inf b, D.num q => D.inf (xor b (decide (q < 0)))
  | D.num p, D.inf c => D.inf (xor (decide (p < 0)) c)
  | D.zero a, D.zero b => D.zero (xor a b)
  | D.zero a, D.num q => D.zero (xor a (decide (q < 0)))
  | D.num p, D.zero b => D.zero (xor (decide (p < 0)) b)
  | D.num p, D.num q => roundQ (qmul p q)

/-- IEEE-754 binary64 division: NaN propagates, `0/0` and `inf/inf` are NaN,
division by zero gives a signed infinity, division of zero or by infinity
gives a signed zero, and a nonzero exact quotient is rounded. -/
def ddiv : D → D → D
  | D.nan, _ => D.nan
  | _, D.nan => D.nan
  | D.inf _, D.inf _ => D.nan
  | D.zero _, D.zero _ => D.nan
  | D.inf b, D.zero c => D.inf (xor b c)
  | D.inf b, D.num q => D.inf (xor b (decide (q < 0)))
  | D.zero a, D.inf c => D.zero (xor a c)
  | D.num p, D.inf c => D.zero (xor (decide (p < 0)) c)
  | D.zero a, D.num q => D.zero (xor a (decide (q < 0)))
  | D.num p, D.zero b => D.inf (xor (decide (p < 0)) b)
  | D.num p, D.num q => roundQ (qdiv p q)

/-- The source comparison `x < y`: false whenever an operand is NaN, the two
zeros are equal, and finite or infinite values compare by magnitude. -/
def dltB : D → D → Bool
  | D.nan, _ => false
  | _, D.nan => false
  | D.inf b, D.inf c => b && !c
  | D.inf b, _ => b
  | _, D.inf c => !c
  | D.zero _, D.zero _ => false
  | D.zero _, D.num q => decide (0 < q)
  | D.num p, D.zero _ => decide (p < 0)
  | D.num p, D.num q => decide (p < q)

/-- The source comparison `x == y`: false whenever an operand is NaN and
`+0 == -0`. -/
def deqB : D → D → Bool
  | D.nan, _ => false
  | _, D.nan => false
  | D.inf b, D.inf c => b == c
  | D.inf _, _ => false
  | _, D.inf _ => false
  | D.zero _, D.zero _ => true
  | D.zero _, D.num q => decide (q = 0)
  | D.num p, D.zero _ => decide (p = 0)
  | D.num p, D.num q => decide (p = q)

/-- The ordering `x <= y` of IEEE-754, expressed from the source comparators
as `x < y || x == y`. -/
def dleB (x y : D) : Bool := dltB x y || deqB x y

/-- Portable `fabs`: the sign bit is cleared. -/
def fabs : D → D
  | D.nan => D.nan
  | D.inf _ => D.inf false
  | D.zero _ => D.zero false
  | D.num q => D.num |q|

/-- `isnan` of the source (biased exponent all ones with nonzero mantissa). -/
def isnan : D → Bool
  | D.nan => true
  | _ => false

/-- `isfinite` of the source (biased exponent not all ones). -/
def isfinite : D → Bool
  | D.nan => false
  | D.inf _ => false
  | _ => true

/-- `fmin` of the source: a NaN operand yields the other operand, otherwise
`x < y ? x : y`. -/
def fmin (x y : D) : D :=
  if isnan x then y else if isnan y then x else if dltB x y then x else y

/-- `fmax` of the source: a NaN operand yields the other operand, otherwise
`x > y ? x : y`. -/
def fmax (x y : D) : D :=
  if isnan x then y else if isnan y then x else if dltB y x then x else y

/-- Truncation toward zero of a rational, the value a C `(long long)` cast
produces when it is defined. -/
def truncQ (q : ℚ) : ℤ := if 0 ≤ q then ⌊q⌋ else ⌈q⌉

/-- The C conversion `(double)z` of a `long long`, rounding to nearest. -/
def intToD (z : ℤ) : D := if z = 0 then D.zero false else roundQ (z : ℚ)

/-- Portable `trunc`: `(double)(long long)x`.  The cast is undefined (`none`)
for NaN, infinities, and values whose truncation does not fit a 64-bit signed
integer. -/
def trunc : D → Option D
  | D.nan => none
  | D.inf _ => none
  | D.zero _ => some (D.zero false)
  | D.num q =>
    if -(2 ^ 63) ≤ truncQ q ∧ truncQ q < 2 ^ 63 then some (intToD (truncQ q)) else none

/-- The literal `1.0`. -/
def oneD : D := D.num 1

/-- The literal `0.5`, exactly representable. -/
def halfD : D := D.num (mkRat 1 2)

/-- The literal `1e-15`: the binary64 nearest to `10^-15`. -/
def tolD : D := roundQ (mkRat 1 1000000000000000)

/-- Portable `floor`: `t = trunc(x); return t > x ? t - 1.0 : t;`. -/
def floor (x : D) : Option D :=
  (trunc x).map fun t => if dltB x t then dsub t oneD else t

/-- Portable `ceil`: `t = trunc(x); return t < x ? t + 1.0 : t;`. -/
def ceil (x : D) : Option D :=
  (trunc x).map fun t => if dltB t x then dadd t oneD else t

/-- `round(x) = floor(x + 0.5)` of the source. -/
def round (x : D) : Option D := floor (dadd x halfD)

/-- The Newton-Raphson loop of the portable `sqrt`, with explicit fuel:
`do { prev = guess; guess = (guess + x / guess) * 0.5; }
while (fabs(guess - prev) > 1e-15);`.  A result of `none` means the loop has
not exited within `fuel` iterations. -/
def newtonLoop (x : D) : D → Nat → Option D
  | _, 0 => none
  | g, fuel + 1 =>
    let g2 := dmul (dadd g (ddiv x g)) halfD
    if dltB tolD (fabs (dsub g2 g)) then newtonLoop x g2 fuel else some g2

/-- Portable `sqrt`: NaN (`0.0/0.0`) for negative input, the argument itself
for a zero input, otherwise the Newton-Raphson loop started from `x`. -/
def sqrt (x : D) (fuel : Nat) : Option D :=
  if dltB x (D.zero false) then some (ddiv (D.zero false) (D.zero false))
  else if deqB x (D.zero false) then some x
  else newtonLoop x x fuel

/-- Portable `fmod`: NaN (`0.0/0.0`) when `y == 0.0`, otherwise
`x - trunc(x/y) * y`; undefined (`none`) when the truncation of the quotient
is undefined. -/
def fmod (x y : D) : Option D :=
  if deqB y (D.zero false) then some (ddiv (D.zero false) (D.zero false))
  else (trunc (ddiv x y)).map fun ip => dsub x (dmul ip y)

/-- The rational value of a finite binary64 datum. -/
def toQ : D → ℚ
  | D.zero _ => 0
  | D.num q => q
  | _ => 0

/-- A finite payload is representable in binary64: it is `m * 2^e` with a
nonzero mantissa of at most 53 bits, exponent at least the subnormal scale,
and magnitude below `2^1024`. -/
def ReprD (q : ℚ) : Prop :=
  ∃ m e : ℤ, q = (m : ℚ) * (2 : ℚ) ^ e ∧ m ≠ 0 ∧ |m| < 2 ^ 53 ∧
    -1074 ≤ e ∧ |q| < (2 : ℚ) ^ (1024 : ℤ)

/-- Validity of a datum: a `num` payload is nonzero and representable. -/
def ValidD : D → Prop
  | D.num q => ReprD q
  | _ => True

/-- The datum carries an integral value (executable). -/
def isIntB : D → Bool
  | D.zero _ => true
  | D.num q => q.den == 1
  | _ => false

/-- Binary64 datum refined to track the sign bit and the mantissa payload of
a NaN (in the encoding, an all-ones exponent with this nonzero mantissa).
The source's `fmin`/`fmax` never inspect these bits but do transport them, so
the refinement makes the two NaN operands distinguishable and a statement
about which NaN operand is returned falsifiable. -/
inductive DP : Type
  | nan (neg : Bool) (payload : ℕ) : DP
  | inf (neg : Bool) : DP
  | zero (neg : Bool) : DP
  | num (q : ℚ) : DP
deriving DecidableEq

/-- `isnan` of the source over the refined datum: the bit test fires for any
sign and any nonzero mantissa payload. -/
def isnanP : DP → Bool
  | DP.nan _ _ => true
  | _ => false

/-- The source comparison `x < y` over the refined datum: false whenever an
operand is NaN, regardless of its payload. -/
def dltP : DP → DP → Bool
  | DP.nan _ _, _ => false
  | _, DP.nan _ _ => false
  | DP.inf b, DP.inf c => b && !c
  | DP.inf b, _ => b
  | _, DP.inf c => !c
  | DP.zero _, DP.zero _ => false
  | DP.zero _, DP.num q => decide (0 < q)
  | DP.num p, DP.zero _ => decide (p < 0)
  | DP.num p, DP.num q => decide (p < q)

/-- `fmin` of the source over the refined datum: a NaN operand yields the
other operand, otherwise `x < y ? x : y`. -/
def fminP (x y : DP) : DP :=
  if isnanP x then y else if isnanP y then x else if dltP x y then x else y

/-- `fmax` of the source over the refined datum: a NaN operand yields the
other operand, otherwise `x > y ? x : y`. -/
def fmaxP (x y : DP) : DP :=
  if isnanP x then y else if isnanP y then x else if dltP y x then x else y

end LibcRedacted

namespace LibcRedacted

theorem copyFwd_outside (n : Nat) :
    ∀ (m : Mem) (d s a : Nat), (a < d ∨ d + n ≤ a) → copyFwd m d s n a = m a := by
  induction n with
  | zero => intro m d s a _; rfl
  | succ n ih =>
    intro m d s a h
    show copyFwd (wr m d (m s)) (d + 1) (s + 1) n a = m a
    rw [ih (wr m d (m s)) (d + 1) (s + 1) a (by omega)]
    have : a ≠ d := by omega
    simp [wr, this]

theorem copyFwd_stamp (n : Nat) :
    ∀ (m : Mem) (d s : Nat), (d + n ≤ s ∨ s + n ≤ d) →
      copyFwd m d s n = stamp m d s n := by
  induction n with
  | zero =>
    intro m d s _
    funext a
    simp only [copyFwd, stamp]
    have : ¬ (d ≤ a ∧ a < d + 0) := by omega
    rw [if_neg this]
  | succ n ih =>
    intro m d s hdisj
    funext a
    show copyFwd (wr m d (m s)) (d + 1) (s + 1) n a = stamp m d s (n + 1) a
    rw [ih (wr m d (m s)) (d + 1) (s + 1) (by omega)]
    by_cases h1 : d + 1 ≤ a ∧ a < d + 1 + n
    · have ha : s + 1 + (a - (d + 1)) = s + (a - d) := by omega
      have hb : s + (a - d) ≠ d := by omega
      simp only [stamp, if_pos h1, ha, wr, if_neg hb]
      have : d ≤ a ∧ a < d + (n + 1) := by omega
      rw [if_pos this]
    · by_cases h2 : a = d
      · simp only [stamp, if_neg h1, wr, if_pos h2]
        have hin2 : d ≤ a ∧ a < d + (n + 1) := by omega
        rw [if_pos hin2]
        have : s + (a - d) = s := by omega
        rw [this]
      · simp only [stamp, if_neg h1, wr, if_neg h2]
        have hout : ¬ (d ≤ a ∧ a < d + (n + 1)) := by omega
        rw [if_neg hout]

theorem copyWords_stamp (w : Nat) :
    ∀ (m : Mem) (d s : Nat), (d + 8 * w ≤ s ∨ s + 8 * w ≤ d) →
      copyWords m d s w = stamp m d s (8 * w) := by
  induction w with
  | zero =>
    intro m d s _
    funext a
    simp only [copyWords, stamp]
    have : ¬ (d ≤ a ∧ a < d + 8 * 0) := by omega
    rw [if_neg this]
  | succ w ih =>
    intro m d s hdisj
    funext a
    show copyWords (wrWord m d s) (d + 8) (s + 8) w a = stamp m d s (8 * (w + 1)) a
    rw [ih (wrWord m d s) (d + 8) (s + 8) (by omega)]
    by_cases h1 : d + 8 ≤ a ∧ a < d + 8 + 8 * w
    · have ha : s + 8 + (a - (d + 8)) = s + (a - d) := by omega
      have hb : ¬ (d ≤ s + (a - d) ∧ s + (a - d) < d + 8) := by omega
      simp only [stamp, if_pos h1, ha, wrWord, if_neg hb]
      have : d ≤ a ∧ a < d + 8 * (w + 1) := by omega
      rw [if_pos this]
    · simp only [stamp, if_neg h1, wrWord]
      by_cases h2 : d ≤ a ∧ a < d + 8
      · rw [if_pos h2]
        have : d ≤ a ∧ a < d + 8 * (w + 1) := by omega
        rw [if_pos this]
      · rw [if_neg h2]
        have hout : ¬ (d ≤ a ∧ a < d + 8 * (w + 1)) := by omega
        rw [if_neg hout]

theorem stamp_compose (m : Mem) (d s k r n : Nat)
    (hdisj : d + n ≤ s ∨ s + n ≤ d) (hkr : k + r ≤ n) :
    stamp (stamp m d s k) (d + k) (s + k) r = stamp m d s (k + r) := by
  funext a
  simp only [stamp]
  by_cases h1 : d + k ≤ a ∧ a < d + k + r
  · have ha : s + k + (a - (d + k)) = s + (a - d) := by omega
    have hb : ¬ (d ≤ s + (a - d) ∧ s + (a - d) < d + k) := by omega
    rw [if_pos h1, ha, if_neg hb]
    have : d ≤ a ∧ a < d + (k + r) := by omega
    rw [if_pos this]
  · rw [if_neg h1]
    by_cases h2 : d ≤ a ∧ a < d + k
    · rw [if_pos h2]
      have : d ≤ a ∧ a < d + (k + r) := by omega
      rw [if_pos this]
    · rw [if_neg h2]
      have hout : ¬ (d ≤ a ∧ a < d + (k + r)) := by omega
      rw [if_neg hout]

theorem memcpy_stamp (m : Mem) (d s n : Nat)
    (hdisj : d + n ≤ s ∨ s + n ≤ d) :
    (memcpy m d s n).1 = stamp m d s n := by
  unfold memcpy
  by_cases hfast : 8 ≤ n ∧ d % 8 = 0 ∧ s % 8 = 0
  · rw [if_pos hfast]
    have hw : d + 8 * (n / 8) ≤ s ∨ s + 8 * (n / 8) ≤ d := by omega
    rw [copyWords_stamp (n / 8) m d s hw]
    have hrem : (d + 8 * (n / 8)) + n % 8 ≤ s + 8 * (n / 8) ∨
        (s + 8 * (n / 8)) + n % 8 ≤ d + 8 * (n / 8) := by omega
    rw [copyFwd_stamp (n % 8) _ _ _ hrem]
    have := stamp_compose m d s (8 * (n / 8)) (n % 8) n hdisj (by omega)
    simp only [this]
    have : 8 * (n / 8) + n % 8 = n := by omega
    rw [this]
  · rw [if_neg hfast]
    exact copyFwd_stamp n m d s hdisj

theorem copyBwd_outside (n : Nat) :
    ∀ (m : Mem) (d s a : Nat), (a < d ∨ d + n ≤ a) → copyBwd m d s n a = m a := by
  induction n with
  | zero => intro m d s a _; rfl
  | succ n ih =>
    intro m d s a h
    show copyBwd (wr m (d + n) (m (s + n))) d s n a = m a
    rw [ih (wr m (d + n) (m (s + n))) d s a (by omega)]
    have : a ≠ d + n := by omega
    simp [wr, this]

theorem copyFwd_dest (n : Nat) :
    ∀ (m : Mem) (d s : Nat), d < s → ∀ i, i < n → copyFwd m d s n (d + i) = m (s + i) := by
  induction n with
  | zero => intro m d s _ i hi; omega
  | succ n ih =>
    intro m d s hds i hi
    show copyFwd (wr m d (m s)) (d + 1) (s + 1) n (d + i) = m (s + i)
    cases i with
    | zero =>
      rw [copyFwd_outside n _ (d + 1) (s + 1) (d + 0) (by omega)]
      simp [wr]
    | succ j =>
      have hdj : d + (j + 1) = (d + 1) + j := by omega
      rw [hdj, ih (wr m d (m s)) (d + 1) (s + 1) (by omega) j (by omega)]
      have : s + 1 + j ≠ d := by omega
      simp only [wr, if_neg this]
      have : s + 1 + j = s + (j + 1) := by omega
      rw [this]

theorem copyBwd_dest (n : Nat) :
    ∀ (m : Mem) (d s : Nat), s < d → ∀ i, i < n → copyBwd m d s n (d + i) = m (s + i) := by
  induction n with
  | zero => intro m d s _ i hi; omega
  | succ n ih =>
    intro m d s hsd i hi
    show copyBwd (wr m (d + n) (m (s + n))) d s n (d + i) = m (s + i)
    by_cases hin : i = n
    · rw [hin]
      rw [copyBwd_outside n _ d s (d + n) (by omega)]
      simp [wr]
    · rw [ih (wr m (d + n) (m (s + n))) d s hsd i (by omega)]
      have : s + i ≠ d + n := by omega
      simp [wr, this]

/-- Claim C1: for every pair of overlapping byte ranges, `memmove` leaves
`dest[0..n)` holding exactly the bytes that `src[0..n)` held before the call
(the observable effect of a snapshot-then-write), and it returns `dest`. -/
theorem memmove_overlap_snapshot (m : Mem) (d s n : Nat)
    (hov : s < d + n ∧ d < s + n) :
    (∀ i, i < n → (memmove m d s n).1 (d + i) = m (s + i)) ∧
      (memmove m d s n).2 = d := by
  unfold memmove
  by_cases h0 : d = s ∨ n = 0
  · rw [if_pos h0]
    refine ⟨fun i hi => ?_, rfl⟩
    rcases h0 with h | h
    · rw [h]
    · omega
  · rw [if_neg h0, if_pos hov]
    have hds : d ≠ s := fun h => h0 (Or.inl h)
    by_cases hlt : d < s
    · rw [if_pos hlt]
      exact ⟨fun i hi => copyFwd_dest n m d s hlt i hi, rfl⟩
    · rw [if_neg hlt]
      have hsd : s < d := by omega
      exact ⟨fun i hi => copyBwd_dest n m d s hsd i hi, rfl⟩

theorem memmove_overlap_snapshot_witness :
    ((0 : Nat) < 2 + 4 ∧ (2 : Nat) < 0 + 4) ∧
      ((∀ i, i < 4 → (memmove (fun a => a) 2 0 4).1 (2 + i) = (fun a : Nat => a) (0 + i)) ∧
        (memmove (fun a => a) 2 0 4).2 = 2) :=
  ⟨by decide, memmove_overlap_snapshot (fun a => a) 2 0 4 (by decide)⟩

/-- Claim C2: on non-overlapping ranges `memmove` is byte-identical to
`memcpy` (the final memory contents agree at every address) and both return
`dest`. -/
theorem memmove_eq_memcpy_disjoint (m : Mem) (d s n : Nat)
    (hno : ¬ (s < d + n ∧ d < s + n)) :
    (∀ a, (memmove m d s n).1 a = (memcpy m d s n).1 a) ∧
      (memmove m d s n).2 = d ∧ (memcpy m d s n).2 = d := by
  have hdisj : d + n ≤ s ∨ s + n ≤ d := by omega
  have hcpy : (memcpy m d s n).1 = stamp m d s n := memcpy_stamp m d s n hdisj
  have hcpy2 : (memcpy m d s n).2 = d := by
    unfold memcpy
    by_cases hfast : 8 ≤ n ∧ d % 8 = 0 ∧ s % 8 = 0
    · rw [if_pos hfast]
    · rw [if_neg hfast]
  refine ⟨fun a => ?_, ?_, hcpy2⟩
  · unfold memmove
    by_cases h0 : d = s ∨ n = 0
    · rw [if_pos h0, hcpy]
      have hn : n = 0 := by
        rcases h0 with h | h
        · subst h; omega
        · exact h
      subst hn
      simp only [stamp]
      have : ¬ (d ≤ a ∧ a < d + 0) := by omega
      rw [if_neg this]
    · rw [if_neg h0, if_neg hno, hcpy, copyFwd_stamp n m d s hdisj]
  · unfold memmove
    by_cases h0 : d = s ∨ n = 0
    · rw [if_pos h0]
    · rw [if_neg h0, if_neg hno]

theorem memmove_eq_memcpy_disjoint_witness :
    (¬ ((9 : Nat) < 0 + 8 ∧ (0 : Nat) < 9 + 8)) ∧
      ((∀ a, (memmove (fun a => a % 7) 0 9 8).1 a = (memcpy (fun a => a % 7) 0 9 8).1 a) ∧
        (memmove (fun a => a % 7) 0 9 8).2 = 0 ∧ (memcpy (fun a => a % 7) 0 9 8).2 = 0) :=
  ⟨by decide, memmove_eq_memcpy_disjoint (fun a => a % 7) 0 9 8 (by decide)⟩

theorem memcmp_eq_zero_of_all_eq (n : Nat) :
    ∀ (m : Mem) (a b : Nat), (∀ i, i < n → m (a + i) = m (b + i)) →
      memcmp m a b n = 0 := by
  induction n with
  | zero => intro m a b _; rfl
  | succ n ih =>
    intro m a b h
    have h0 : m a = m b := by
      have := h 0 (by omega)
      simpa using this
    show (if m a ≠ m b then (m a : Int) - (m b : Int) else memcmp m (a + 1) (b + 1) n) = 0
    rw [if_neg (by simpa using h0)]
    exact ih m (a + 1) (b + 1) (fun i hi => by
      have := h (i + 1) (by omega)
      have ha : a + (i + 1) = a + 1 + i := by omega
      have hb : b + (i + 1) = b + 1 + i := by omega
      rw [ha, hb] at this
      exact this)

theorem memcmp_first_diff (n : Nat) :
    ∀ (m : Mem) (a b j : Nat), j < n → (∀ i, i < j → m (a + i) = m (b + i)) →
      m (a + j) ≠ m (b + j) →
      memcmp m a b n = (m (a + j) : Int) - (m (b + j) : Int) := by
  induction n with
  | zero => intro m a b j hj _ _; omega
  | succ n ih =>
    intro m a b j hj hpre hdiff
    show (if m a ≠ m b then (m a : Int) - (m b : Int) else memcmp m (a + 1) (b + 1) n) =
      (m (a + j) : Int) - (m (b + j) : Int)
    cases j with
    | zero =>
      have : m a ≠ m b := by simpa using hdiff
      rw [if_pos this]
      simp
    | succ j =>
      have h0 : m a = m b := by
        have := hpre 0 (by omega)
        simpa using this
      rw [if_neg (by simpa using h0)]
      have ha : a + (j + 1) = a + 1 + j := by omega
      have hb : b + (j + 1) = b + 1 + j := by omega
      rw [ha, hb] at hdiff ⊢
      exact ih m (a + 1) (b + 1) j (by omega) (fun i hi => by
        have := hpre (i + 1) (by omega)
        have ha2 : a + (i + 1) = a + 1 + i := by omega
        have hb2 : b + (i + 1) = b + 1 + i := by omega
        rw [ha2, hb2] at this
        exact this) hdiff

theorem memcmp_self (n : Nat) : ∀ (m : Mem) (a : Nat), memcmp m a a n = 0 := by
  induction n with
  | zero => intro m a; rfl
  | succ n ih =>
    intro m a
    show (if m a ≠ m a then (m a : Int) - (m a : Int) else memcmp m (a + 1) (a + 1) n) = 0
    rw [if_neg (by simp)]
    exact ih m (a + 1)

theorem memcmp_antisym (n : Nat) :
    ∀ (m : Mem) (a b : Nat), memcmp m a b n = - memcmp m b a n := by
  induction n with
  | zero => intro m a b; rfl
  | succ n ih =>
    intro m a b
    show (if m a ≠ m b then (m a : Int) - (m b : Int) else memcmp m (a + 1) (b + 1) n) =
      - (if m b ≠ m a then (m b : Int) - (m a : Int) else memcmp m (b + 1) (a + 1) n)
    by_cases h : m a = m b
    · rw [if_neg (by simpa using h), if_neg (by simp [h])]
      exact ih m (a + 1) (b + 1)
    · rw [if_pos h, if_pos (fun hba => h hba.symm)]
      ring

/-- Claim C8: `memcmp` returns `0` when the first `n` bytes agree, otherwise
the signed difference of the first differing byte pair; consequently it is
reflexive and antisymmetric. -/
theorem memcmp_spec (m : Mem) (a b n : Nat) :
    ((∀ i, i < n → m (a + i) = m (b + i)) → memcmp m a b n = 0) ∧
      (∀ j, j < n → (∀ i, i < j → m (a + i) = m (b + i)) → m (a + j) ≠ m (b + j) →
        memcmp m a b n = (m (a + j) : Int) - (m (b + j) : Int)) ∧
      memcmp m a a n = 0 ∧
      memcmp m a b n = - memcmp m b a n :=
  ⟨memcmp_eq_zero_of_all_eq n m a b,
    fun j hj hpre hdiff => memcmp_first_diff n m a b j hj hpre hdiff,
    memcmp_self n m a,
    memcmp_antisym n m a b⟩

theorem memcmp_spec_witness :
    memcmp (fun k => k % 3) 0 1 2 = ((fun k : Nat => k % 3) (0 + 0) : Int) -
      ((fun k : Nat => k % 3) (1 + 0) : Int) :=
  (memcmp_spec (fun k => k % 3) 0 1 2).2.1 0 (by decide)
    (fun i hi => absurd hi (Nat.not_lt_zero i)) (by decide)

theorem qadd_eq (a b : ℚ) : qadd a b = a + b := by
  unfold qadd
  rw [Rat.mkRat_eq_divInt, Rat.divInt_eq_div]
  have ha : ((a.den : ℚ)) ≠ 0 := Nat.cast_ne_zero.mpr a.den_ne_zero
  have hb : ((b.den : ℚ)) ≠ 0 := Nat.cast_ne_zero.mpr b.den_ne_zero
  conv_rhs => rw [← Rat.num_div_den a, ← Rat.num_div_den b]
  rw [div_add_div _ _ ha hb]
  push_cast
  ring_nf

theorem qmul_eq (a b : ℚ) : qmul a b = a * b := by
  unfold qmul
  rw [Rat.mkRat_eq_divInt, Rat.divInt_eq_div]
  conv_rhs => rw [← Rat.num_div_den a, ← Rat.num_div_den b]
  rw [div_mul_div_comm]
  push_cast
  ring_nf

theorem qdiv_eq (a b : ℚ) : qdiv a b = a / b := by
  unfold qdiv
  rw [Rat.divInt_eq_div]
  by_cases hb : b = 0
  · subst hb
    simp
  · have hbn : b.num ≠ 0 := Rat.num_ne_zero.mpr hb
    have hbnq : ((b.num : ℚ)) ≠ 0 := Int.cast_ne_zero.mpr hbn
    have ha : ((a.den : ℚ)) ≠ 0 := Nat.cast_ne_zero.mpr a.den_ne_zero
    have hbd : ((b.den : ℚ)) ≠ 0 := Nat.cast_ne_zero.mpr b.den_ne_zero
    conv_rhs => rw [← Rat.num_div_den a, ← Rat.num_div_den b]
    push_cast
    field_simp

theorem twoPowF_eq (fuel : Nat) : ∀ k, k ≤ fuel → twoPowF fuel k = 2 ^ k := by
  induction fuel with
  | zero =>
    intro k h
    have : k = 0 := by omega
    subst this
    rfl
  | succ fuel ih =>
    intro k h
    show (if k = 0 then 1
      else
        let h2 := twoPowF fuel (k / 2)
        if k % 2 = 0 then h2 * h2 else h2 * h2 * 2) = 2 ^ k
    by_cases h0 : k = 0
    · subst h0
      simp
    · rw [if_neg h0]
      show (if k % 2 = 0 then twoPowF fuel (k / 2) * twoPowF fuel (k / 2)
        else twoPowF fuel (k / 2) * twoPowF fuel (k / 2) * 2) = 2 ^ k
      rw [ih (k / 2) (by omega)]
      by_cases h2 : k % 2 = 0
      · rw [if_pos h2, ← pow_add]
        congr 1
        omega
      · rw [if_neg h2, ← pow_add,
          show 2 ^ (k / 2 + k / 2) * 2 = 2 ^ (k / 2 + k / 2 + 1) from (pow_succ 2 _).symm]
        congr 1
        omega

theorem twoPow_eq (k : Nat) : twoPow k = 2 ^ k := twoPowF_eq k k le_rfl

theorem pow2_eq (z : ℤ) : pow2 z = (2 : ℚ) ^ z := by
  unfold pow2
  rw [twoPow_eq, twoPow_eq]
  by_cases h : 0 ≤ z
  · rw [if_pos h]
    push_cast
    rw [← zpow_natCast (2 : ℚ) z.toNat]
    congr 1
    omega
  · rw [if_neg h, Rat.mkRat_eq_divInt, Rat.divInt_eq_div]
    push_cast
    rw [← zpow_natCast (2 : ℚ) (-z).toNat, one_div, ← zpow_neg]
    congr 1
    omega

theorem pow2_pos (z : ℤ) : 0 < pow2 z := by
  rw [pow2_eq]
  exact zpow_pos two_pos z

theorem szSmall_zero (fuel : Nat) : szSmall fuel 0 = 0 := by
  cases fuel <;> rfl

theorem szSmall_pos (fuel n : Nat) (h1 : 1 ≤ n) (h2 : 1 ≤ fuel) : 1 ≤ szSmall fuel n := by
  cases fuel with
  | zero => omega
  | succ fuel =>
    show 1 ≤ if n = 0 then 0 else szSmall fuel (n / 2) + 1
    rw [if_neg (by omega)]
    omega

theorem szSmall_upper (fuel : Nat) :
    ∀ n, n < 2 ^ fuel → n < 2 ^ szSmall fuel n := by
  induction fuel with
  | zero =>
    intro n h
    have : n = 0 := by
      have : (2 : Nat) ^ 0 = 1 := rfl
      omega
    subst this
    decide
  | succ fuel ih =>
    intro n h
    show n < 2 ^ (if n = 0 then 0 else szSmall fuel (n / 2) + 1)
    by_cases h0 : n = 0
    · subst h0; simp
    · rw [if_neg h0]
      have hstep : 2 ^ (fuel + 1) = 2 ^ fuel * 2 := pow_succ 2 fuel
      have hk := ih (n / 2) (by omega)
      have hp : 2 ^ (szSmall fuel (n / 2) + 1) = 2 ^ szSmall fuel (n / 2) * 2 :=
        pow_succ 2 _
      omega

theorem szSmall_lower (fuel : Nat) :
    ∀ n, n < 2 ^ fuel → 1 ≤ n → 2 ^ (szSmall fuel n - 1) ≤ n := by
  induction fuel with
  | zero =>
    intro n h h1
    have : (2 : Nat) ^ 0 = 1 := rfl
    omega
  | succ fuel ih =>
    intro n h h1
    show 2 ^ ((if n = 0 then 0 else szSmall fuel (n / 2) + 1) - 1) ≤ n
    rw [if_neg (by omega)]
    simp only [Nat.add_sub_cancel]
    by_cases h2 : n / 2 = 0
    · have : n = 1 := by omega
      subst this
      rw [show (1 : Nat) / 2 = 0 by decide, szSmall_zero]
      decide
    · have hstep : 2 ^ (fuel + 1) = 2 ^ fuel * 2 := pow_succ 2 fuel
      have hfuel1 : 1 ≤ fuel := by
        by_contra hcon
        have : fuel = 0 := by omega
        subst this
        have : (2 : Nat) ^ 1 = 2 := rfl
        omega
      have hk := ih (n / 2) (by omega) (by omega)
      have hs1 := szSmall_pos fuel (n / 2) (by omega) hfuel1
      have hp : 2 ^ szSmall fuel (n / 2) = 2 ^ (szSmall fuel (n / 2) - 1) * 2 := by
        have he : szSmall fuel (n / 2) - 1 + 1 = szSmall fuel (n / 2) := by omega
        rw [← he, pow_succ]
        simp
      omega

theorem szBig_upper (fuel : Nat) :
    ∀ n, n ≤ fuel → n < 2 ^ szBig fuel n := by
  induction fuel with
  | zero =>
    intro n h
    have : n = 0 := by omega
    subst this
    decide
  | succ fuel ih =>
    intro n h
    show n < 2 ^ (if n < 18446744073709551616 then szSmall 64 n
      else szBig fuel (n / 18446744073709551616) + 64)
    by_cases h0 : n < 18446744073709551616
    · rw [if_pos h0]
      exact szSmall_upper 64 n (by norm_num; omega)
    · rw [if_neg h0]
      have hk := ih (n / 18446744073709551616) (by omega)
      have hp : 2 ^ (szBig fuel (n / 18446744073709551616) + 64) =
          2 ^ szBig fuel (n / 18446744073709551616) * 18446744073709551616 := by
        rw [pow_add]
        norm_num
      omega

theorem szBig_lower (fuel : Nat) :
    ∀ n, n ≤ fuel → 1 ≤ n → 2 ^ (szBig fuel n - 1) ≤ n := by
  induction fuel with
  | zero => intro n h h1; omega
  | succ fuel ih =>
    intro n h h1
    show 2 ^ ((if n < 18446744073709551616 then szSmall 64 n
      else szBig fuel (n / 18446744073709551616) + 64) - 1) ≤ n
    by_cases h0 : n < 18446744073709551616
    · rw [if_pos h0]
      exact szSmall_lower 64 n (by norm_num; omega) h1
    · rw [if_neg h0]
      have hk := ih (n / 18446744073709551616) (by omega) (by omega)
      have hku := szBig_upper fuel (n / 18446744073709551616) (by omega)
      have hpos : 1 ≤ szBig fuel (n / 18446744073709551616) := by
        by_contra hcon
        have hz : szBig fuel (n / 18446744073709551616) = 0 := by omega
        rw [hz] at hku
        have : (2 : Nat) ^ 0 = 1 := rfl
        omega
      have he : szBig fuel (n / 18446744073709551616) + 64 - 1 =
          (szBig fuel (n / 18446744073709551616) - 1) + 64 := by omega
      rw [he, pow_add]
      have : (2 : Nat) ^ 64 = 18446744073709551616 := by norm_num
      omega

theorem sz_upper (n : Nat) : n < 2 ^ sz n := szBig_upper n n le_rfl

theorem sz_lower (n : Nat) (h : 1 ≤ n) : 2 ^ (sz n - 1) ≤ n :=
  szBig_lower n n le_rfl h

theorem sz_pos (n : Nat) (h : 1 ≤ n) : 1 ≤ sz n := by
  have hu := sz_upper n
  by_contra hcon
  have hz : sz n = 0 := by omega
  rw [hz] at hu
  have : (2 : Nat) ^ 0 = 1 := rfl
  omega

theorem qlog2_spec (a : ℚ) (ha : 0 < a) :
    pow2 (qlog2 a) ≤ a ∧ a < pow2 (qlog2 a + 1) := by
  have hnum : 0 < a.num := Rat.num_pos.mpr ha
  unfold qlog2
  set n := a.num.toNat with hn
  set d := a.den with hd
  have hn1 : 1 ≤ n := by omega
  have hd1 : 1 ≤ d := a.den_pos
  set sn := sz n with hsn
  set sd := sz d with hsd
  have hsn1 : 1 ≤ sn := sz_pos n hn1
  have hsd1 : 1 ≤ sd := sz_pos d hd1
  have hnq : ((n : ℚ)) = (a.num : ℚ) := by
    have h : (n : ℤ) = a.num := by omega
    exact_mod_cast congrArg (fun z : ℤ => (z : ℚ)) h
  have hae : a = (n : ℚ) / (d : ℚ) := by
    rw [hnq, hd]
    exact (Rat.num_div_den a).symm
  have hdq : (0 : ℚ) < (d : ℚ) := by exact_mod_cast hd1
  have h2Q : (2 : ℚ) ≠ 0 := by norm_num
  have h1 : (n : ℚ) < (2 : ℚ) ^ ((sn : ℤ)) := by
    rw [zpow_natCast]
    exact_mod_cast sz_upper n
  have h2 : (2 : ℚ) ^ ((sd : ℤ) - 1) ≤ (d : ℚ) := by
    have hcast : ((sd : ℤ) - 1) = ((sd - 1 : ℕ) : ℤ) := by omega
    rw [hcast, zpow_natCast]
    exact_mod_cast sz_lower d hd1
  have h3 : (d : ℚ) < (2 : ℚ) ^ ((sd : ℤ)) := by
    rw [zpow_natCast]
    exact_mod_cast sz_upper d
  have h4 : (2 : ℚ) ^ ((sn : ℤ) - 1) ≤ (n : ℚ) := by
    have hcast : ((sn : ℤ) - 1) = ((sn - 1 : ℕ) : ℤ) := by omega
    rw [hcast, zpow_natCast]
    exact_mod_cast sz_lower n hn1
  have hA : a < (2 : ℚ) ^ ((sn : ℤ) - sd + 1) := by
    rw [hae, div_lt_iff hdq]
    calc (n : ℚ) < (2 : ℚ) ^ ((sn : ℤ)) := h1
    _ = (2 : ℚ) ^ ((sn : ℤ) - sd + 1) * (2 : ℚ) ^ ((sd : ℤ) - 1) := by
        rw [← zpow_add₀ h2Q]
        congr 1
        ring
    _ ≤ (2 : ℚ) ^ ((sn : ℤ) - sd + 1) * (d : ℚ) :=
        mul_le_mul_of_nonneg_left h2 (le_of_lt (zpow_pos two_pos _))
  have hB : (2 : ℚ) ^ ((sn : ℤ) - sd - 1) ≤ a := by
    rw [hae, le_div_iff hdq]
    have hlt : (2 : ℚ) ^ ((sn : ℤ) - sd - 1) * (d : ℚ) < (n : ℚ) := by
      calc (2 : ℚ) ^ ((sn : ℤ) - sd - 1) * (d : ℚ)
          < (2 : ℚ) ^ ((sn : ℤ) - sd - 1) * (2 : ℚ) ^ ((sd : ℤ)) :=
            mul_lt_mul_of_pos_left h3 (zpow_pos two_pos _)
      _ = (2 : ℚ) ^ ((sn : ℤ) - 1) := by
            rw [← zpow_add₀ h2Q]
            congr 1
            ring
      _ ≤ (n : ℚ) := h4
    exact le_of_lt hlt
  by_cases hc : a < pow2 ((sn : ℤ) - sd)
  · rw [if_pos hc]
    constructor
    · rw [pow2_eq]
      exact hB
    · have he : (sn : ℤ) - sd - 1 + 1 = (sn : ℤ) - sd := by ring
      rw [he]
      exact hc
  · rw [if_neg hc]
    refine ⟨not_lt.mp hc, ?_⟩
    rw [pow2_eq]
    exact hA

theorem rnd_natCast (k : ℕ) : rnd ((k : ℕ) : ℚ) = k := by
  unfold rnd
  simp [Nat.mod_one]

theorem roundQ_exact (m e : ℤ) (hm : m ≠ 0) (h53 : |m| < 2 ^ 53) (he : -1074 ≤ e)
    (hb : |(m : ℚ) * (2 : ℚ) ^ e| < (2 : ℚ) ^ (1024 : ℤ)) :
    roundQ ((m : ℚ) * (2 : ℚ) ^ e) = D.num ((m : ℚ) * (2 : ℚ) ^ e) := by
  set q : ℚ := (m : ℚ) * (2 : ℚ) ^ e with hqdef
  have h2Q : (2 : ℚ) ≠ 0 := by norm_num
  have hmq : ((m : ℚ)) ≠ 0 := Int.cast_ne_zero.mpr hm
  have hq0 : q ≠ 0 := mul_ne_zero hmq (zpow_ne_zero e h2Q)
  have ha0 : 0 < |q| := abs_pos.mpr hq0
  simp only [roundQ]
  rw [if_neg hq0]
  obtain ⟨hL1, hL2⟩ := qlog2_spec |q| ha0
  set L := qlog2 |q| with hLdef
  set p : ℤ := max (L - 52) (-1074) with hpdef
  have h2e : |(2 : ℚ) ^ e| = (2 : ℚ) ^ e :=
    abs_of_pos (zpow_pos (by norm_num : (0 : ℚ) < 2) e)
  have habs : |q| = |(m : ℚ)| * (2 : ℚ) ^ e := by
    rw [hqdef, abs_mul, h2e]
  have hmabs : |(m : ℚ)| = ((m.natAbs : ℕ) : ℚ) := by
    rw [← Int.cast_abs]
    exact Int.cast_natAbs.symm
  have h53q : (2 : ℚ) ^ (53 : ℤ) = ((2 ^ 53 : ℕ) : ℚ) := by
    rw [← pow2_eq]
    rfl
  have h53n : (m.natAbs : ℤ) < 2 ^ 53 := by
    rw [Int.abs_eq_natAbs] at h53
    exact h53
  have hm53 : |(m : ℚ)| < (2 : ℚ) ^ (53 : ℤ) := by
    rw [h53q, hmabs]
    exact_mod_cast h53n
  have hub : |q| < (2 : ℚ) ^ (53 + e) := by
    rw [habs, zpow_add₀ h2Q]
    exact mul_lt_mul_of_pos_right hm53 (zpow_pos two_pos e)
  have hLlt : L < 53 + e := by
    have h2L : (2 : ℚ) ^ L ≤ |q| := by rw [← pow2_eq]; exact hL1
    exact (zpow_lt_zpow_iff_right₀ (by norm_num : (1 : ℚ) < 2)).mp
      (lt_of_le_of_lt h2L hub)
  have hpe : p ≤ e := by omega
  set k : ℕ := m.natAbs * 2 ^ (e - p).toNat with hkdef
  have hkq : ((k : ℕ) : ℚ) = qdiv |q| (pow2 p) := by
    rw [qdiv_eq, pow2_eq, habs, hmabs, hkdef]
    push_cast
    rw [← zpow_natCast (2 : ℚ) (e - p).toNat,
      show (((e - p).toNat : ℤ)) = e - p by omega, zpow_sub₀ h2Q]
    ring
  have hk0 : k ≠ 0 := by
    have hna : m.natAbs ≠ 0 := Int.natAbs_ne_zero.mpr hm
    exact Nat.mul_ne_zero hna (Nat.pos_iff_ne_zero.mp (Nat.two_pow_pos _))
  have hval : qmul ((k : ℕ) : ℚ) (pow2 p) = |q| := by
    rw [qmul_eq, pow2_eq, habs, hmabs, hkdef]
    push_cast
    rw [← zpow_natCast (2 : ℚ) (e - p).toNat,
      show (((e - p).toNat : ℤ)) = e - p by omega, zpow_sub₀ h2Q]
    field_simp
  rw [← hkq, rnd_natCast, if_neg hk0, hval]
  have hguard : ¬ (pow2 1024 ≤ |q|) := by
    rw [pow2_eq]
    exact not_le.mpr hb
  rw [if_neg hguard]
  by_cases hs : q < 0
  · rw [decide_eq_true hs, if_pos rfl, abs_of_neg hs]
    simp
  · rw [decide_eq_false hs, if_neg (by simp), abs_of_nonneg (not_lt.mp hs)]

/-- Rounding is the identity on representable payloads. -/
theorem roundQ_reprD (v : ℚ) (hr : ReprD v) : roundQ v = D.num v := by
  obtain ⟨m, e, hv, hm, h53, he, hb⟩ := hr
  rw [hv]
  exact roundQ_exact m e hm h53 he (hv ▸ hb)

theorem cast_pow_eq_zpow (k : ℕ) : (((2 : ℤ) ^ k : ℤ) : ℚ) = (2 : ℚ) ^ ((k : ℕ) : ℤ) := by
  rw [zpow_natCast]
  push_cast
  ring

theorem reprD_int (z : ℤ) (hz : z ≠ 0) (h : |z| < 2 ^ 53) : ReprD ((z : ℤ) : ℚ) := by
  refine ⟨z, 0, by simp, hz, h, by norm_num, ?_⟩
  rw [← Int.cast_abs]
  have h1 : |z| < 2 ^ 1024 := lt_trans h (by norm_num)
  calc ((|z| : ℤ) : ℚ) < (((2 : ℤ) ^ 1024 : ℤ) : ℚ) := by exact_mod_cast h1
  _ = (2 : ℚ) ^ (1024 : ℤ) := cast_pow_eq_zpow 1024

theorem roundQ_int (z : ℤ) (hz : z ≠ 0) (h : |z| < 2 ^ 53) :
    roundQ ((z : ℤ) : ℚ) = D.num ((z : ℤ) : ℚ) :=
  roundQ_reprD _ (reprD_int z hz h)

theorem intToD_eq (z : ℤ) (hz : z ≠ 0) (h : |z| < 2 ^ 53) :
    intToD z = D.num ((z : ℤ) : ℚ) := by
  unfold intToD
  rw [if_neg hz]
  exact roundQ_int z hz h

theorem truncQ_intCast (z : ℤ) : truncQ ((z : ℤ) : ℚ) = z := by
  unfold truncQ
  by_cases h : (0 : ℚ) ≤ (z : ℚ)
  · rw [if_pos h, Int.floor_intCast]
  · rw [if_neg h, Int.ceil_intCast]

theorem reprD_ne_zero (q : ℚ) (hr : ReprD q) : q ≠ 0 := by
  obtain ⟨m, e, hv, hm, _, _, _⟩ := hr
  rw [hv]
  exact mul_ne_zero (Int.cast_ne_zero.mpr hm) (zpow_ne_zero e (by norm_num))

/-- A representable value is an integer or has magnitude below `2^52`. -/
theorem reprD_cases (q : ℚ) (hr : ReprD q) :
    (∃ z : ℤ, ((z : ℤ) : ℚ) = q) ∨ |q| < (2 : ℚ) ^ (52 : ℤ) := by
  obtain ⟨m, e, hv, hm, h53, he, hb⟩ := hr
  by_cases he0 : 0 ≤ e
  · left
    refine ⟨m * 2 ^ e.toNat, ?_⟩
    rw [hv]
    push_cast
    rw [← zpow_natCast (2 : ℚ) e.toNat, show ((e.toNat : ℕ) : ℤ) = e by omega]
  · right
    have h2Q : (2 : ℚ) ≠ 0 := by norm_num
    have h2e : |(2 : ℚ) ^ e| = (2 : ℚ) ^ e :=
      abs_of_pos (zpow_pos (by norm_num : (0 : ℚ) < 2) e)
    have hmabs : |(m : ℚ)| = ((m.natAbs : ℕ) : ℚ) := by
      rw [← Int.cast_abs]
      exact Int.cast_natAbs.symm
    have h53n : (m.natAbs : ℤ) < 2 ^ 53 := by
      rw [Int.abs_eq_natAbs] at h53
      exact h53
    have h53q : (2 : ℚ) ^ (53 : ℤ) = ((2 ^ 53 : ℕ) : ℚ) := by
      rw [← pow2_eq]
      rfl
    have hm53 : |(m : ℚ)| < (2 : ℚ) ^ (53 : ℤ) := by
      rw [h53q, hmabs]
      exact_mod_cast h53n
    calc |q| = |(m : ℚ)| * (2 : ℚ) ^ e := by rw [hv, abs_mul, h2e]
    _ < (2 : ℚ) ^ (53 : ℤ) * (2 : ℚ) ^ e :=
        mul_lt_mul_of_pos_right hm53 (zpow_pos (by norm_num : (0 : ℚ) < 2) e)
    _ ≤ (2 : ℚ) ^ (53 : ℤ) * (2 : ℚ) ^ (-1 : ℤ) := by
        refine mul_le_mul_of_nonneg_left ?_ (le_of_lt (zpow_pos (by norm_num) _))
        exact zpow_le_zpow_right₀ (by norm_num) (by omega)
    _ = (2 : ℚ) ^ (52 : ℤ) := by
        rw [← zpow_add₀ h2Q]
        norm_num

/-- Addition of two small integer payloads is exact. -/
theorem dadd_int (a b : ℤ) (h : a + b ≠ 0) (h53 : |a + b| < 2 ^ 53) :
    dadd (D.num ((a : ℤ) : ℚ)) (D.num ((b : ℤ) : ℚ)) = D.num ((a + b : ℤ) : ℚ) := by
  show (if qadd ((a : ℤ) : ℚ) ((b : ℤ) : ℚ) = 0 then D.zero false
    else roundQ (qadd ((a : ℤ) : ℚ) ((b : ℤ) : ℚ))) = D.num ((a + b : ℤ) : ℚ)
  rw [qadd_eq, show ((a : ℚ) + (b : ℚ)) = ((a + b : ℤ) : ℚ) by push_cast; ring,
    if_neg (Int.cast_ne_zero.mpr h)]
  exact roundQ_int (a + b) h h53

theorem dltB_num_num (a b : ℚ) : dltB (D.num a) (D.num b) = decide (a < b) := rfl

theorem dltB_num_zero (a : ℚ) (s : Bool) : dltB (D.num a) (D.zero s) = decide (a < 0) := rfl

theorem dltB_zero_num (a : ℚ) (s : Bool) : dltB (D.zero s) (D.num a) = decide (0 < a) := rfl

theorem deqB_num_num (a b : ℚ) : deqB (D.num a) (D.num b) = decide (a = b) := rfl

theorem deqB_num_zero (a : ℚ) (s : Bool) : deqB (D.num a) (D.zero s) = decide (a = 0) := rfl

theorem deqB_zero_num (a : ℚ) (s : Bool) : deqB (D.zero s) (D.num a) = decide (a = 0) := rfl

theorem dadd_zero_left (s : Bool) (b : ℚ) : dadd (D.zero s) (D.num b) = D.num b := rfl

theorem dadd_num_num (a b : ℚ) :
    dadd (D.num a) (D.num b) =
      if qadd a b = 0 then D.zero false else roundQ (qadd a b) := rfl

theorem oneD_int : oneD = D.num ((1 : ℤ) : ℚ) := by norm_num [oneD]

theorem negOneD_int : dneg oneD = D.num ((-1 : ℤ) : ℚ) := by
  show D.num (-(1 : ℚ)) = D.num ((-1 : ℤ) : ℚ)
  norm_num

theorem dadd_int_one (z : ℤ) (h : z + 1 ≠ 0) (h53 : |z + 1| < 2 ^ 53) :
    dadd (D.num ((z : ℤ) : ℚ)) oneD = D.num ((z + 1 : ℤ) : ℚ) := by
  rw [oneD_int]
  exact dadd_int z 1 h h53

theorem dsub_int_one (z : ℤ) (h : z - 1 ≠ 0) (h53 : |z - 1| < 2 ^ 53) :
    dsub (D.num ((z : ℤ) : ℚ)) oneD = D.num ((z - 1 : ℤ) : ℚ) := by
  show dadd (D.num ((z : ℤ) : ℚ)) (dneg oneD) = D.num ((z - 1 : ℤ) : ℚ)
  rw [negOneD_int]
  have hadd := dadd_int z (-1) (by omega) (by rwa [show z + -1 = z - 1 by ring])
  rwa [show z + -1 = z - 1 by ring] at hadd

/-- Claim C3, amended to the domain on which the portable `(long long)` cast
of `trunc` is defined: for every valid finite binary64 value `x` with
`-2^63 <= x < 2^63`, `floor`, `trunc` and `ceil` are all defined,
`floor(x) <= x <= ceil(x)`, and when `x` is integral all three compare equal
to `x` under the source comparison `==`. -/
theorem floor_ceil_trunc_spec_in_range (x : D) (hv : ValidD x) (hf : isfinite x = true)
    (hlo : -((2 : ℚ) ^ (63 : ℕ)) ≤ toQ x) (hhi : toQ x < (2 : ℚ) ^ (63 : ℕ)) :
    ∃ f t c, floor x = some f ∧ trunc x = some t ∧ ceil x = some c ∧
      dleB f x = true ∧ dleB x c = true ∧
      (isIntB x = true → deqB f x = true ∧ deqB c x = true ∧ deqB t x = true) := by
  cases x with
  | nan => simp [isfinite] at hf
  | inf b => simp [isfinite] at hf
  | zero b =>
    cases b
    · exact ⟨D.zero false, D.zero false, D.zero false, by decide, by decide, by decide,
        by decide, by decide, by decide⟩
    · exact ⟨D.zero false, D.zero false, D.zero false, by decide, by decide, by decide,
        by decide, by decide, by decide⟩
  | num q =>
    have hq0 : q ≠ 0 := reprD_ne_zero q hv
    have hqlo : -((2 : ℚ) ^ (63 : ℕ)) ≤ q := hlo
    have hqhi : q < (2 : ℚ) ^ (63 : ℕ) := hhi
    have hc63 : (((2 : ℤ) ^ 63 : ℤ) : ℚ) = (2 : ℚ) ^ (63 : ℕ) := by push_cast; ring
    set z := truncQ q with hz
    have hrange : -(2 ^ 63) ≤ z ∧ z < 2 ^ 63 := by
      constructor
      · by_cases hq : 0 ≤ q
        · have hz0 : (0 : ℤ) ≤ z := by
            rw [hz]
            unfold truncQ
            rw [if_pos hq]
            exact Int.floor_nonneg.mpr hq
          have : (0 : ℤ) ≥ -(2 ^ 63) := by norm_num
          omega
        · have hzc : z = ⌈q⌉ := by
            rw [hz]
            unfold truncQ
            rw [if_neg hq]
          have h1 : ((-(2 ^ 63) : ℤ) : ℚ) ≤ (⌈q⌉ : ℚ) := by
            push_cast
            calc -((2 : ℚ) ^ (63 : ℕ)) ≤ q := hqlo
            _ ≤ (⌈q⌉ : ℚ) := Int.le_ceil q
          rw [hzc]
          exact_mod_cast h1
      · by_cases hq : 0 ≤ q
        · have hzc : z = ⌊q⌋ := by
            rw [hz]
            unfold truncQ
            rw [if_pos hq]
          rw [hzc, Int.floor_lt, hc63]
          exact hqhi
        · have hz0 : z ≤ 0 := by
            rw [hz]
            unfold truncQ
            rw [if_neg hq]
            exact Int.ceil_le.mpr (by exact_mod_cast le_of_lt (not_le.mp hq))
          have : (0 : ℤ) < 2 ^ 63 := by norm_num
          omega
    have htr : trunc (D.num q) = some (intToD z) := by
      show (if -(2 ^ 63) ≤ truncQ q ∧ truncQ q < 2 ^ 63
        then some (intToD (truncQ q)) else none) = some (intToD z)
      rw [← hz, if_pos hrange]
    have hfl : floor (D.num q) =
        some (if dltB (D.num q) (intToD z) then dsub (intToD z) oneD else intToD z) := by
      unfold floor
      rw [htr]
      rfl
    have hcl : ceil (D.num q) =
        some (if dltB (intToD z) (D.num q) then dadd (intToD z) oneD else intToD z) := by
      unfold ceil
      rw [htr]
      rfl
    by_cases hz0 : z = 0
    · have hi : intToD z = D.zero false := by rw [hz0]; rfl
      rw [hi] at htr hfl hcl
      by_cases hq : 0 ≤ q
      · have hq' : 0 < q := lt_of_le_of_ne hq (Ne.symm hq0)
        have hflr : ⌊q⌋ = 0 := by
          have h1 : truncQ q = 0 := by rw [← hz]; exact hz0
          unfold truncQ at h1
          rwa [if_pos hq] at h1
        have hq1 : q < 1 := (Int.floor_eq_zero_iff.mp hflr).2
        refine ⟨D.zero false, D.zero false, D.num 1, ?_, htr, ?_, ?_, ?_, ?_⟩
        · rw [hfl, dltB_num_zero, decide_eq_false (not_lt.mpr hq)]
          simp
        · rw [hcl, dltB_zero_num, decide_eq_true hq']
          simp
          rfl
        · simp [dleB, dltB_zero_num, hq']
        · simp [dleB, dltB_num_num, hq1]
        · intro hint
          exfalso
          have hd : q.den = 1 := by simpa [isIntB] using hint
          have hqz : ((q.num : ℤ) : ℚ) = q := (Rat.den_eq_one_iff q).mp hd
          have h1 : (0 : ℤ) < q.num := by
            have : (0 : ℚ) < ((q.num : ℤ) : ℚ) := by rw [hqz]; exact hq'
            exact_mod_cast this
          have h2 : (q.num : ℤ) < 1 := by
            have : ((q.num : ℤ) : ℚ) < 1 := by rw [hqz]; exact hq1
            exact_mod_cast this
          omega
      · have hq' : q < 0 := not_le.mp hq
        have hclr : ⌈q⌉ = 0 := by
          have h1 : truncQ q = 0 := by rw [← hz]; exact hz0
          unfold truncQ at h1
          rwa [if_neg hq] at h1
        have hqm1 : -1 < q := (Int.ceil_eq_zero_iff.mp hclr).1
        refine ⟨D.num (-1), D.zero false, D.zero false, ?_, htr, ?_, ?_, ?_, ?_⟩
        · rw [hfl, dltB_num_zero, decide_eq_true hq']
          simp
          rfl
        · rw [hcl, dltB_zero_num, decide_eq_false (not_lt.mpr (le_of_lt hq'))]
          simp
        · simp [dleB, dltB_num_num, hqm1]
        · simp [dleB, dltB_num_zero, hq']
        · intro hint
          exfalso
          have hd : q.den = 1 := by simpa [isIntB] using hint
          have hqz : ((q.num : ℤ) : ℚ) = q := (Rat.den_eq_one_iff q).mp hd
          have h1 : q.num < 0 := by
            have : ((q.num : ℤ) : ℚ) < 0 := by rw [hqz]; exact hq'
            exact_mod_cast this
          have h2 : (-1 : ℤ) < q.num := by
            have : (-1 : ℚ) < ((q.num : ℤ) : ℚ) := by rw [hqz]; exact hqm1
            exact_mod_cast this
          omega
    · by_cases hint : q.den = 1
      · have hqz : ((q.num : ℤ) : ℚ) = q := (Rat.den_eq_one_iff q).mp hint
        have hzq : z = q.num := by
          rw [hz]
          calc truncQ q = truncQ ((q.num : ℤ) : ℚ) := by rw [hqz]
          _ = q.num := truncQ_intCast q.num
        have hi : intToD z = D.num q := by
          unfold intToD
          rw [if_neg hz0, hzq, hqz]
          exact roundQ_reprD q hv
        rw [hi] at htr hfl hcl
        refine ⟨D.num q, D.num q, D.num q, ?_, htr, ?_, ?_, ?_, ?_⟩
        · rw [hfl, dltB_num_num, decide_eq_false (lt_irrefl q)]
          simp
        · rw [hcl, dltB_num_num, decide_eq_false (lt_irrefl q)]
          simp
        · simp [dleB, deqB_num_num]
        · simp [dleB, deqB_num_num]
        · intro _
          refine ⟨?_, ?_, ?_⟩ <;> simp [deqB_num_num]
      · have hnint : ¬ ∃ w : ℤ, ((w : ℤ) : ℚ) = q := by
          rintro ⟨w, hw⟩
          exact hint (by rw [← hw]; exact Rat.den_intCast w)
        have hsmall : |q| < (2 : ℚ) ^ (52 : ℤ) := (reprD_cases q hv).resolve_left hnint
        have h52 : (((2 : ℤ) ^ 52 : ℤ) : ℚ) = (2 : ℚ) ^ (52 : ℤ) := cast_pow_eq_zpow 52
        have habs := abs_lt.mp hsmall
        have hzb : -(2 ^ 52) < z ∧ z < 2 ^ 52 := by
          by_cases hq : 0 ≤ q
          · have hzc : z = ⌊q⌋ := by rw [hz]; unfold truncQ; rw [if_pos hq]
            have hnn : 0 ≤ z := by rw [hzc]; exact Int.floor_nonneg.mpr hq
            have h1 : ((z : ℤ) : ℚ) < (((2 : ℤ) ^ 52 : ℤ) : ℚ) := by
              rw [h52, hzc]
              exact lt_of_le_of_lt (Int.floor_le q) habs.2
            have h2 : z < 2 ^ 52 := by exact_mod_cast h1
            constructor
            · have : (0 : ℤ) < 2 ^ 52 := by norm_num
              omega
            · exact h2
          · have hzc : z = ⌈q⌉ := by rw [hz]; unfold truncQ; rw [if_neg hq]
            have hnp : z ≤ 0 := by
              rw [hzc]
              exact Int.ceil_le.mpr (by exact_mod_cast le_of_lt (not_le.mp hq))
            have h1 : ((-((2 : ℤ) ^ 52) : ℤ) : ℚ) < ((z : ℤ) : ℚ) := by
              rw [Int.cast_neg, h52, hzc]
              calc -((2 : ℚ) ^ (52 : ℤ)) < q := habs.1
              _ ≤ (⌈q⌉ : ℚ) := Int.le_ceil q
            have h2 : -(2 ^ 52) < z := by exact_mod_cast h1
            constructor
            · exact h2
            · have : (0 : ℤ) < 2 ^ 52 := by norm_num
              omega
        have hz53 : |z| < 2 ^ 53 := by
          rw [abs_lt]
          constructor <;> omega
        have hi : intToD z = D.num ((z : ℤ) : ℚ) := intToD_eq z hz0 hz53
        rw [hi] at htr hfl hcl
        by_cases hq : 0 ≤ q
        · have hzc : z = ⌊q⌋ := by rw [hz]; unfold truncQ; rw [if_pos hq]
          have hnn : 0 ≤ z := by rw [hzc]; exact Int.floor_nonneg.mpr hq
          have hzlt : ((z : ℤ) : ℚ) < q := by
            rcases lt_or_eq_of_le (by rw [hzc]; exact Int.floor_le q :
              ((z : ℤ) : ℚ) ≤ q) with h | h
            · exact h
            · exact absurd ⟨z, h⟩ hnint
          have hqlt1 : q < ((z + 1 : ℤ) : ℚ) := by
            rw [hzc]
            push_cast
            exact Int.lt_floor_add_one q
          have hcadd : dadd (D.num ((z : ℤ) : ℚ)) oneD = D.num ((z + 1 : ℤ) : ℚ) :=
            dadd_int_one z (by omega) (by rw [abs_lt]; constructor <;> omega)
          refine ⟨D.num ((z : ℤ) : ℚ), D.num ((z : ℤ) : ℚ), D.num ((z + 1 : ℤ) : ℚ),
            ?_, htr, ?_, ?_, ?_, ?_⟩
          · rw [hfl, dltB_num_num, decide_eq_false (not_lt.mpr (le_of_lt hzlt))]
            simp
          · rw [hcl, dltB_num_num, decide_eq_true hzlt, if_pos rfl, hcadd]
          · simp [dleB, dltB_num_num, hzlt]
          · simp only [dleB, Bool.or_eq_true, dltB_num_num, decide_eq_true_eq]
            left
            exact_mod_cast hqlt1
          · intro hint2
            exact absurd (by simpa [isIntB] using hint2) hint
        · have hq' : q < 0 := not_le.mp hq
          have hzc : z = ⌈q⌉ := by rw [hz]; unfold truncQ; rw [if_neg hq]
          have hnp : z ≤ 0 := by
            rw [hzc]
            exact Int.ceil_le.mpr (by exact_mod_cast le_of_lt hq')
          have hzgt : q < ((z : ℤ) : ℚ) := by
            rcases lt_or_eq_of_le (by rw [hzc]; exact Int.le_ceil q :
              q ≤ ((z : ℤ) : ℚ)) with h | h
            · exact h
            · exact absurd ⟨z, h.symm⟩ hnint
          have hqgt1 : ((z - 1 : ℤ) : ℚ) < q := by
            rw [hzc]
            push_cast
            have := Int.ceil_lt_add_one q
            linarith
          have hcsub : dsub (D.num ((z : ℤ) : ℚ)) oneD = D.num ((z - 1 : ℤ) : ℚ) :=
            dsub_int_one z (by omega) (by rw [abs_lt]; constructor <;> omega)
          refine ⟨D.num ((z - 1 : ℤ) : ℚ), D.num ((z : ℤ) : ℚ), D.num ((z : ℤ) : ℚ),
            ?_, htr, ?_, ?_, ?_, ?_⟩
          · rw [hfl, dltB_num_num, decide_eq_true hzgt, if_pos rfl, hcsub]
          · rw [hcl, dltB_num_num, decide_eq_false (not_lt.mpr (le_of_lt hzgt))]
            simp
          · simp only [dleB, Bool.or_eq_true, dltB_num_num, decide_eq_true_eq]
            left
            exact_mod_cast hqgt1
          · simp [dleB, dltB_num_num, hzgt]
          · intro hint2
            exact absurd (by simpa [isIntB] using hint2) hint

/-- Claim C3, counterexample to the unrestricted statement: `2^63` is a valid,
finite, integral binary64 value, yet the portable `trunc` (and with it `floor`
and `ceil`) is undefined there, because `(long long)x` has no defined result
once the truncated value reaches `2^63`. -/
theorem trunc_undefined_at_two_pow_63 :
    ValidD (D.num ((2 : ℚ) ^ (63 : ℕ))) ∧
      isfinite (D.num ((2 : ℚ) ^ (63 : ℕ))) = true ∧
      isIntB (D.num ((2 : ℚ) ^ (63 : ℕ))) = true ∧
      trunc (D.num ((2 : ℚ) ^ (63 : ℕ))) = none ∧
      floor (D.num ((2 : ℚ) ^ (63 : ℕ))) = none ∧
      ceil (D.num ((2 : ℚ) ^ (63 : ℕ))) = none := by
  refine ⟨⟨1, 63, ?_, one_ne_zero, by norm_num, by norm_num, ?_⟩,
    by decide, by decide, by decide, by decide, by decide⟩
  · rw [Int.cast_one, one_mul]
    exact (zpow_natCast (2 : ℚ) 63).symm
  · have habs : |(2 : ℚ) ^ (63 : ℕ)| = (2 : ℚ) ^ (63 : ℕ) :=
      abs_of_pos (by positivity)
    rw [habs]
    calc (2 : ℚ) ^ (63 : ℕ) = ((2 ^ 63 : ℕ) : ℚ) := by push_cast; ring
    _ < ((2 ^ 1024 : ℕ) : ℚ) := by
        exact_mod_cast Nat.pow_lt_pow_right (by norm_num) (by norm_num)
    _ = (2 : ℚ) ^ (1024 : ℤ) := by rw [← pow2_eq]; rfl

theorem floor_ceil_trunc_spec_in_range_witness :
    (ValidD (D.num (mkRat 5 2)) ∧ isfinite (D.num (mkRat 5 2)) = true ∧
      -((2 : ℚ) ^ (63 : ℕ)) ≤ toQ (D.num (mkRat 5 2)) ∧
      toQ (D.num (mkRat 5 2)) < (2 : ℚ) ^ (63 : ℕ)) ∧
    (∃ f t c, floor (D.num (mkRat 5 2)) = some f ∧
      trunc (D.num (mkRat 5 2)) = some t ∧ ceil (D.num (mkRat 5 2)) = some c ∧
      dleB f (D.num (mkRat 5 2)) = true ∧ dleB (D.num (mkRat 5 2)) c = true ∧
      (isIntB (D.num (mkRat 5 2)) = true →
        deqB f (D.num (mkRat 5 2)) = true ∧ deqB c (D.num (mkRat 5 2)) = true ∧
          deqB t (D.num (mkRat 5 2)) = true)) := by
  have hv : ValidD (D.num (mkRat 5 2)) := by
    refine ⟨5, -1, ?_, by norm_num, by norm_num, by norm_num, ?_⟩
    · rw [Rat.mkRat_eq_divInt, Rat.divInt_eq_div]
      norm_num
    · rw [Rat.mkRat_eq_divInt, Rat.divInt_eq_div]
      rw [show (2 : ℚ) ^ (1024 : ℤ) = ((2 ^ 1024 : ℕ) : ℚ) from by rw [← pow2_eq]; rfl]
      rw [abs_of_pos (by norm_num)]
      norm_num
  refine ⟨⟨hv, by decide, by decide, by decide⟩, ?_⟩
  exact floor_ceil_trunc_spec_in_range (D.num (mkRat 5 2)) hv (by decide)
    (by decide) (by decide)

/-- Claim C5: `round(x)` is literally `floor(x + 0.5)` for every value, and on
the half-integers `2.5` and `-2.5` this gives `3.0` and `-2.0`: round half up,
not round half to even. -/
theorem round_is_floor_half_up :
    (∀ x : D, round x = floor (dadd x halfD)) ∧
      round (D.num (mkRat 5 2)) = some (D.num 3) ∧
      round (D.num (mkRat (-5) 2)) = some (D.num (-2)) :=
  ⟨fun _ => rfl, by decide, by decide⟩

/-- Claim C6: for every `x` and every `y` with `y == 0.0` (which covers both
zeros), `fmod(x, y)` is the NaN `0.0/0.0`; otherwise `fmod(x, y)` is
`x - trunc(x/y) * y`; in particular `fmod(5.0, 0.0)` is NaN and
`fmod(5.5, 2.0) = 1.5`. -/
theorem fmod_nan_zero_divisor_and_identity :
    (∀ x y : D, deqB y (D.zero false) = true →
      fmod x y = some (ddiv (D.zero false) (D.zero false)) ∧
        isnan (ddiv (D.zero false) (D.zero false)) = true) ∧
      (∀ x y : D, deqB y (D.zero false) = false →
        fmod x y = (trunc (ddiv x y)).map fun ip => dsub x (dmul ip y)) ∧
      fmod (D.num 5) (D.zero false) = some D.nan ∧
      fmod (D.num (mkRat 11 2)) (D.num 2) = some (D.num (mkRat 3 2)) := by
  refine ⟨?_, ?_, by decide, by decide⟩
  · intro x y h
    constructor
    · unfold fmod
      rw [if_pos h]
    · rfl
  · intro x y h
    unfold fmod
    rw [if_neg (by simp [h])]

theorem fmod_nan_zero_divisor_and_identity_witness :
    (deqB (D.zero true) (D.zero false) = true ∧
      (fmod (D.num 5) (D.zero true) = some (ddiv (D.zero false) (D.zero false)) ∧
        isnan (ddiv (D.zero false) (D.zero false)) = true)) ∧
      (deqB (D.num 2) (D.zero false) = false ∧
        fmod (D.num (mkRat 11 2)) (D.num 2) =
          (trunc (ddiv (D.num (mkRat 11 2)) (D.num 2))).map
            fun ip => dsub (D.num (mkRat 11 2)) (dmul ip (D.num 2))) :=
  ⟨⟨by decide, fmod_nan_zero_divisor_and_identity.1 (D.num 5) (D.zero true)
      (by decide)⟩,
    ⟨by decide, fmod_nan_zero_divisor_and_identity.2.1 (D.num (mkRat 11 2))
      (D.num 2) (by decide)⟩⟩

theorem dltB_false_of_deqB_zero (x : D) (h : deqB x (D.zero false) = true) :
    dltB x (D.zero false) = false := by
  cases x with
  | nan => simp [deqB] at h
  | inf b => simp [deqB] at h
  | zero b => rfl
  | num q =>
    have hq : q = 0 := by simpa [deqB] using h
    simp [dltB, hq]

/-- Claim C7: the portable `sqrt` returns NaN (`0.0/0.0`) for every negative
argument, returns the argument itself for a zero argument (preserving the sign
of zero), and computes `sqrt(4.0) = 2.0` exactly. -/
theorem sqrt_neg_nan_zero_id_four_exact :
    (∀ (x : D) (fuel : ℕ), dltB x (D.zero false) = true →
      sqrt x fuel = some (ddiv (D.zero false) (D.zero false)) ∧
        isnan (ddiv (D.zero false) (D.zero false)) = true) ∧
      (∀ (x : D) (fuel : ℕ), deqB x (D.zero false) = true → sqrt x fuel = some x) ∧
      sqrt (D.num 4) 10 = some (D.num 2) := by
  refine ⟨?_, ?_, by decide⟩
  · intro x fuel h
    constructor
    · unfold sqrt
      rw [if_pos h]
    · rfl
  · intro x fuel h
    unfold sqrt
    rw [if_neg (by simp [dltB_false_of_deqB_zero x h]), if_pos h]

theorem sqrt_neg_nan_zero_id_four_exact_witness :
    (dltB (D.num (-1)) (D.zero false) = true ∧
      (sqrt (D.num (-1)) 3 = some (ddiv (D.zero false) (D.zero false)) ∧
        isnan (ddiv (D.zero false) (D.zero false)) = true)) ∧
      (deqB (D.zero true) (D.zero false) = true ∧
        sqrt (D.zero true) 5 = some (D.zero true)) :=
  ⟨⟨by decide, sqrt_neg_nan_zero_id_four_exact.1 (D.num (-1)) 3 (by decide)⟩,
    ⟨by decide, sqrt_neg_nan_zero_id_four_exact.2.1 (D.zero true) 5 (by decide)⟩⟩

theorem dleB_refl_of_not_nan (x : D) (h : isnan x = false) : dleB x x = true := by
  cases x <;> simp_all [isnan, dleB, dltB, deqB]

theorem dleB_total (x y : D) (hx : isnan x = false) (hy : isnan y = false)
    (h : dltB x y = false) : dleB y x = true := by
  cases x <;> cases y <;> simp_all [isnan, dleB, dltB, deqB]
  case inf.inf b c => cases b <;> cases c <;> simp_all
  case zero.num b q => exact h.lt_or_eq
  case num.zero q b => exact h.lt_or_eq.imp id Eq.symm
  case num.num p q => exact h.lt_or_eq

/-- Claim C9: when exactly one argument of `fmin`/`fmax` is NaN the other
argument is returned; when neither is NaN the result is one of the two
arguments and is a lower (respectively upper) bound of both under the
IEEE-754 ordering. -/
theorem fmin_fmax_nan_tolerant (x y : D) :
    (isnan x = true → isnan y = false → fmin x y = y ∧ fmax x y = y) ∧
      (isnan x = false → isnan y = true → fmin x y = x ∧ fmax x y = x) ∧
      (isnan x = false → isnan y = false →
        ((fmin x y = x ∨ fmin x y = y) ∧ dleB (fmin x y) x = true ∧
          dleB (fmin x y) y = true) ∧
        ((fmax x y = x ∨ fmax x y = y) ∧ dleB x (fmax x y) = true ∧
          dleB y (fmax x y) = true)) := by
  refine ⟨?_, ?_, ?_⟩
  · intro hx _
    constructor <;> simp [fmin, fmax, hx]
  · intro hx hy
    constructor <;> simp [fmin, fmax, hx, hy]
  · intro hx hy
    have hminred : fmin x y = if dltB x y then x else y := by simp [fmin, hx, hy]
    have hmaxred : fmax x y = if dltB y x then x else y := by simp [fmax, hx, hy]
    constructor
    · by_cases h : dltB x y = true
      · rw [hminred, if_pos h]
        exact ⟨Or.inl rfl, dleB_refl_of_not_nan x hx, by simp [dleB, h]⟩
      · have h' : dltB x y = false := by simpa using h
        rw [hminred, if_neg (by simp [h'])]
        exact ⟨Or.inr rfl, dleB_total x y hx hy h', dleB_refl_of_not_nan y hy⟩
    · by_cases h : dltB y x = true
      · rw [hmaxred, if_pos h]
        exact ⟨Or.inl rfl, dleB_refl_of_not_nan x hx, by simp [dleB, h]⟩
      · have h' : dltB y x = false := by simpa using h
        rw [hmaxred, if_neg (by simp [h'])]
        exact ⟨Or.inr rfl, dleB_total y x hy hx h', dleB_refl_of_not_nan y hy⟩

theorem fmin_fmax_nan_tolerant_witness :
    isnan D.nan = true ∧ isnan (D.num 1) = false ∧
      (fmin D.nan (D.num 1) = D.num 1 ∧ fmax D.nan (D.num 1) = D.num 1) :=
  ⟨by decide, by decide,
    (fmin_fmax_nan_tolerant D.nan (D.num 1)).1 (by decide) (by decide)⟩

/-- Claim C10: when both arguments are NaN, `fmin` and `fmax` return the
second argument `y` itself — deterministically the second operand, whatever
the sign and payload bits of the two NaNs — because the `isnan(x)` test fires
first and returns `y`; the result is therefore always a NaN.  Stated over the
payload-tracking refinement `DP`, on which the two NaN operands are
distinguishable, so the theorem would fail if the code returned the first
operand instead. -/
theorem fmin_fmax_both_nan (x y : DP) (hx : isnanP x = true) (hy : isnanP y = true) :
    fminP x y = y ∧ fmaxP x y = y ∧
      isnanP (fminP x y) = true ∧ isnanP (fmaxP x y) = true := by
  cases x with
  | nan s p =>
    have h1 : fminP (DP.nan s p) y = y := by simp [fminP, isnanP]
    have h2 : fmaxP (DP.nan s p) y = y := by simp [fmaxP, isnanP]
    refine ⟨h1, h2, ?_, ?_⟩
    · rw [h1]
      exact hy
    · rw [h2]
      exact hy
  | inf b => simp [isnanP] at hx
  | zero b => simp [isnanP] at hx
  | num q => simp [isnanP] at hx

theorem fmin_fmax_both_nan_witness :
    isnanP (DP.nan false 1) = true ∧ isnanP (DP.nan true 2) = true ∧
      (fminP (DP.nan false 1) (DP.nan true 2) = DP.nan true 2 ∧
        fmaxP (DP.nan false 1) (DP.nan true 2) = DP.nan true 2 ∧
        isnanP (fminP (DP.nan false 1) (DP.nan true 2)) = true ∧
        isnanP (fmaxP (DP.nan false 1) (DP.nan true 2)) = true) :=
  ⟨by decide, by decide,
    fmin_fmax_both_nan (DP.nan false 1) (DP.nan true 2) (by decide) (by decide)⟩

end LibcRedacted
